import Mathlib

/-!
Shallow embedding of the peer-to-peer file distribution client
(core types, piece store, wire codec, peer registry) together with
proofs settling the specification claims.

Modelling conventions:
* Rust `u8`/`u32`/`usize` values are modelled as `Nat`; where overflow
  matters (the `as u32` cast in `Message::serialize`) the reduction
  `% 2^32` is explicit.
* Byte strings (`Vec<u8>`, `&[u8]`) are `List Nat` whose elements are
  intended to be `< 256`; all concrete inputs used in theorems are bytes.
* `HashMap` values are association lists; the arbitrary iteration order of
  `HashMap::keys().next()` is a parameter `choose` constrained only to
  return a member of the key list (`CacheChoice`).
* The SHA-1 function comes from an external crate, so it is a parameter
  `sha1 : List Nat → Hash` of the piece-store operations.
* `Instant` timestamps are `Nat`; `f64` rates are `Nat` (only their
  ordering is ever used, and no claim depends on rate arithmetic).
* Fallible Rust functions returning `io::Result` / `Result<T>` are
  modelled with `Except`.
-/

/-- SHA-1 hash type (20 bytes) — src/core/types.rs. -/
abbrev Hash := List Nat

/-- Peer ID type (20 bytes, opaque) — src/core/types.rs. -/
abbrev PeerId := List Nat

/-- Piece index type (u32) — src/core/types.rs. -/
abbrev PieceIndex := Nat

/-- Network address, opaque to every claim — std::net::SocketAddr. -/
abbrev SocketAddr := Nat

/-! ## Bitfield — src/core/types.rs -/

/-- Bitfield for tracking piece availability (`bits: BitVec` is a list of
booleans, `num_pieces` the declared piece count). -/
structure Bitfield where
  bits : List Bool
  num_pieces : Nat
  deriving Repr, DecidableEq

namespace Bitfield

/-- `Bitfield::new`: all pieces set to false. -/
def new (numPieces : Nat) : Bitfield :=
  { bits := List.replicate numPieces false, num_pieces := numPieces }

/-- The eight bits of one byte pushed by the inner loop of
`Bitfield::from_bytes`: `(byte >> (7 - i)) & 1 == 1` for `i` in `0..8`. -/
def byteBits (byte : Nat) : List Bool :=
  [decide ((byte >>> 7) &&& 1 = 1), decide ((byte >>> 6) &&& 1 = 1),
   decide ((byte >>> 5) &&& 1 = 1), decide ((byte >>> 4) &&& 1 = 1),
   decide ((byte >>> 3) &&& 1 = 1), decide ((byte >>> 2) &&& 1 = 1),
   decide ((byte >>> 1) &&& 1 = 1), decide ((byte >>> 0) &&& 1 = 1)]

/-- `Bitfield::from_bytes`: the double loop pushes the bytes' bits
MSB-first, breaking as soon as `num_pieces` bits are collected
(`take numPieces`), then `bits.resize(num_pieces, false)` pads short
input with `false`.  The function is total: it never rejects. -/
def from_bytes (bytes : List Nat) (numPieces : Nat) : Bitfield :=
  let bits := ((bytes.map byteBits).flatten).take numPieces
  { bits := bits ++ List.replicate (numPieces - bits.length) false,
    num_pieces := numPieces }

/-- `Bitfield::set_piece`: `bits.get_mut(i)` is a no-op past the end,
exactly like `List.set`. -/
def set_piece (bf : Bitfield) (pieceIndex : PieceIndex) : Bitfield :=
  { bf with bits := bf.bits.set pieceIndex true }

/-- `Bitfield::unset_piece`. -/
def unset_piece (bf : Bitfield) (pieceIndex : PieceIndex) : Bitfield :=
  { bf with bits := bf.bits.set pieceIndex false }

/-- `Bitfield::has_piece`: `bits.get(i).map(|b| *b).unwrap_or(false)`. -/
def has_piece (bf : Bitfield) (pieceIndex : PieceIndex) : Bool :=
  bf.bits.getD pieceIndex false

/-- `Bitfield::total_pieces`. -/
def total_pieces (bf : Bitfield) : Nat :=
  bf.num_pieces

/-- `Bitfield::missing_pieces`: indices whose bit is clear, ascending. -/
def missing_pieces (bf : Bitfield) : List PieceIndex :=
  (bf.bits.enum.filter (fun p => !p.2)).map Prod.fst

/-- `Bitfield::available_pieces`: indices whose bit is set, ascending. -/
def available_pieces (bf : Bitfield) : List PieceIndex :=
  (bf.bits.enum.filter (fun p => p.2)).map Prod.fst

end Bitfield

/-! ## Piece — src/core/types.rs -/

/-- Represents a single piece of a file.  `Instant` is modelled as `Nat`. -/
structure Piece where
  index : PieceIndex
  data : Option (List Nat)
  hash : Hash
  verified : Bool
  in_flight : Bool
  last_requested : Option Nat
  deriving Repr, DecidableEq

namespace Piece

/-- `Piece::new`. -/
def new (index : PieceIndex) (hash : Hash) : Piece :=
  { index := index, data := none, hash := hash, verified := false,
    in_flight := false, last_requested := none }

/-- `Piece::verify`: hashes `data` with SHA-1 (the external `sha1` crate,
passed as a parameter) and records whether it matches `hash`; returns the
new `verified` flag.  Returns `false` without touching state when `data`
is `None`. -/
def verify (sha1 : List Nat → Hash) (p : Piece) : Bool × Piece :=
  match p.data with
  | some d =>
      let computed := sha1 d
      let v := decide (computed = p.hash)
      (v, { p with verified := v })
  | none => (false, p)

/-- `Piece::set_data`: stores the data, then verifies.  Note the data is
stored unconditionally, before the hash check. -/
def set_data (sha1 : List Nat → Hash) (p : Piece) (d : List Nat) :
    Bool × Piece :=
  verify sha1 { p with data := some d }

end Piece

/-! ## Errors — src/core/error.rs (payload strings dropped) -/

/-- The error variants of `TorrentError` reachable from the embedded
operations (each `{..}` payload string is dropped). -/
inductive TorrentErr where
  | validationInvalidHash
  | fileNotFound
  | peerNotFound
  deriving Repr, DecidableEq

/-! ## Association lists standing in for `HashMap` -/

/-- `HashMap::get` on an association list. -/
def alistGet {α β : Type} [DecidableEq α] (l : List (α × β)) (k : α) :
    Option β :=
  match l with
  | [] => none
  | (k', v) :: rest => if k' = k then some v else alistGet rest k

/-- `HashMap::insert`: replaces the value of an existing key in place,
otherwise adds the entry. -/
def alistInsert {α β : Type} [DecidableEq α] (l : List (α × β)) (k : α)
    (v : β) : List (α × β) :=
  match l with
  | [] => [(k, v)]
  | (k', v') :: rest =>
      if k' = k then (k', v) :: rest else (k', v') :: alistInsert rest k v

/-- `HashMap::remove`. -/
def alistRemove {α β : Type} [DecidableEq α] (l : List (α × β)) (k : α) :
    List (α × β) :=
  match l with
  | [] => []
  | (k', v') :: rest =>
      if k' = k then rest else (k', v') :: alistRemove rest k

/-- `map.contains_key(k)`. -/
def alistHasKey {α β : Type} [DecidableEq α] (l : List (α × β)) (k : α) :
    Bool :=
  (alistGet l k).isSome

/-! ## PieceManager — src/file/piece_manager.rs -/

/-- Manages file pieces for a torrent.  `pieces` and `piece_cache` are
`HashMap`s modelled as association lists. -/
structure PieceManager where
  pieces : List (PieceIndex × Piece)
  bitfield : Bitfield
  piece_length : Nat
  num_pieces : Nat
  piece_cache : List (PieceIndex × List Nat)
  cache_size : Nat
  deriving Repr, DecidableEq

/-- A model of `HashMap::keys().next()` for the piece cache: any function
that returns `none` exactly on the empty key list and otherwise some
member.  The real iteration order is arbitrary, so the piece-store
operations are parametrised by such a function. -/
def CacheChoice (choose : List PieceIndex → Option PieceIndex) : Prop :=
  ∀ l : List PieceIndex,
    match choose l with
    | some k => k ∈ l
    | none => l = []

namespace PieceManager

/-- `PieceManager::new`. -/
def new (pieceHashes : List Hash) (pieceLength : Nat) (cacheSize : Nat) :
    PieceManager :=
  let numPieces := pieceHashes.length
  { pieces := pieceHashes.enum.map (fun p => (p.1, Piece.new p.1 p.2)),
    bitfield := Bitfield.new numPieces,
    piece_length := pieceLength,
    num_pieces := numPieces,
    piece_cache := [],
    cache_size := cacheSize }

/-- `PieceManager::is_valid_piece`. -/
def is_valid_piece (pm : PieceManager) (pieceIndex : PieceIndex) : Bool :=
  decide (pieceIndex < pm.num_pieces)

/-- `PieceManager::add_piece_data`: validates the index, looks the piece
up, stores and verifies the data, and on success sets the bitfield bit and
inserts into the cache (evicting the key iterated first by the `HashMap`
when the cache is full).  Parameters: `sha1` the external hash function,
`choose` the cache key-iteration order. -/
def add_piece_data (sha1 : List Nat → Hash)
    (choose : List PieceIndex → Option PieceIndex) (pm : PieceManager)
    (pieceIndex : PieceIndex) (data : List Nat) :
    Except TorrentErr (Bool × PieceManager) :=
  if ¬ pm.is_valid_piece pieceIndex then
    .error .validationInvalidHash
  else
    match alistGet pm.pieces pieceIndex with
    | none => .error .fileNotFound
    | some piece =>
        let vp := piece.set_data sha1 data
        let verified := vp.1
        let pm := { pm with
          pieces := alistInsert pm.pieces pieceIndex vp.2 }
        if verified then
          let cache :=
            if pm.piece_cache.length ≥ pm.cache_size then
              match choose (pm.piece_cache.map Prod.fst) with
              | some oldestKey => alistRemove pm.piece_cache oldestKey
              | none => pm.piece_cache
            else pm.piece_cache
          .ok (verified, { pm with
            bitfield := pm.bitfield.set_piece pieceIndex,
            piece_cache := alistInsert cache pieceIndex data })
        else
          .ok (verified, pm)

/-- `PieceManager::get_piece_data`: cache first, then piece storage.
Takes `&self`, so it never mutates the manager. -/
def get_piece_data (pm : PieceManager) (pieceIndex : PieceIndex) :
    Option (List Nat) :=
  match alistGet pm.piece_cache pieceIndex with
  | some data => some data
  | none =>
      match alistGet pm.pieces pieceIndex with
      | some piece => piece.data
      | none => none

/-- `PieceManager::evict_from_cache`. -/
def evict_from_cache (pm : PieceManager) (pieceIndex : PieceIndex) :
    PieceManager :=
  { pm with piece_cache := alistRemove pm.piece_cache pieceIndex }

/-- `PieceManager::clear_cache`. -/
def clear_cache (pm : PieceManager) : PieceManager :=
  { pm with piece_cache := [] }

/-- One piece-store operation of the sequences quantified over by the
cache-policy claim.  `read` is `get_piece_data`, which takes `&self` and
therefore leaves the state unchanged. -/
inductive Op where
  | submit (pieceIndex : PieceIndex) (data : List Nat)
  | read (pieceIndex : PieceIndex)
  | evict (pieceIndex : PieceIndex)
  | clear
  deriving Repr, DecidableEq

/-- Run one operation against the piece store (a failed `submit` leaves
the manager as it was, like the early-return error paths). -/
def runOp (sha1 : List Nat → Hash)
    (choose : List PieceIndex → Option PieceIndex) (pm : PieceManager) :
    Op → PieceManager
  | .submit i d =>
      match add_piece_data sha1 choose pm i d with
      | .ok r => r.2
      | .error _ => pm
  | .read _ => pm
  | .evict i => evict_from_cache pm i
  | .clear => clear_cache pm

/-- Run a sequence of piece-store operations. -/
def runOps (sha1 : List Nat → Hash)
    (choose : List PieceIndex → Option PieceIndex) (pm : PieceManager)
    (ops : List Op) : PieceManager :=
  ops.foldl (runOp sha1 choose) pm

end PieceManager

/-! ## Wire codec — src/protocol/mod.rs and src/protocol/handshake.rs -/

/-- `bytes::BufMut::put_u32`: big-endian bytes of `n` truncated to u32. -/
def putU32 (n : Nat) : List Nat :=
  let m := n % 2 ^ 32
  [m / 2 ^ 24, m / 2 ^ 16 % 256, m / 2 ^ 8 % 256, m % 256]

/-- `bytes::Buf::get_u32` on the first four bytes of a buffer (the callers
all guard the length first; absent bytes read as 0). -/
def getU32 (data : List Nat) : Nat :=
  2 ^ 24 * data.getD 0 0 + 2 ^ 16 * data.getD 1 0 +
    2 ^ 8 * data.getD 2 0 + data.getD 3 0

/-- Protocol message types with their wire ids — src/protocol/mod.rs. -/
inductive MessageType where
  | Choke
  | Unchoke
  | Interested
  | NotInterested
  | Have
  | BitfieldMsg
  | Request
  | PieceMsg
  | Cancel
  | Port
  | KeepAlive
  deriving Repr, DecidableEq

namespace MessageType

/-- `impl From<MessageType> for u8` (`msg_type as u8`; KeepAlive = 255). -/
def toU8 : MessageType → Nat
  | .Choke => 0
  | .Unchoke => 1
  | .Interested => 2
  | .NotInterested => 3
  | .Have => 4
  | .BitfieldMsg => 5
  | .Request => 6
  | .PieceMsg => 7
  | .Cancel => 8
  | .Port => 9
  | .KeepAlive => 255

/-- `impl From<u8> for MessageType`: ids 0–9, anything else KeepAlive. -/
def ofU8 (value : Nat) : MessageType :=
  match value with
  | 0 => .Choke
  | 1 => .Unchoke
  | 2 => .Interested
  | 3 => .NotInterested
  | 4 => .Have
  | 5 => .BitfieldMsg
  | 6 => .Request
  | 7 => .PieceMsg
  | 8 => .Cancel
  | 9 => .Port
  | _ => .KeepAlive

end MessageType

/-- A protocol message — src/protocol/mod.rs. -/
structure Message where
  message_type : MessageType
  payload : List Nat
  deriving Repr, DecidableEq

/-- `io::Error` kinds raised by the codec. -/
inductive IoErr where
  | invalidData
  | unexpectedEof
  deriving Repr, DecidableEq

namespace Message

/-- `Message::keep_alive`. -/
def keep_alive : Message :=
  { message_type := .KeepAlive, payload := [] }

/-- `Message::serialize`: 4-byte big-endian length prefixing
`1 + payload.len()` (cast `as u32`), the type id byte, then the payload. -/
def serialize (m : Message) : List Nat :=
  putU32 (1 + m.payload.length) ++ m.message_type.toU8 :: m.payload

/-- `Message::deserialize`: needs at least 5 bytes; a zero length field is
a Keep-Alive; otherwise checks `data.len() < 5 + message_length - 1`,
reads the type byte and the `message_length - 1` payload bytes. -/
def deserialize (data : List Nat) : Except IoErr Message :=
  if data.length < 5 then .error .invalidData
  else
    let messageLength := getU32 data
    if messageLength = 0 then .ok keep_alive
    else if data.length < 5 + messageLength - 1 then .error .invalidData
    else
      .ok { message_type := MessageType.ofU8 (data.getD 4 0),
            payload := (data.drop 5).take (messageLength - 1) }

/-- `MessageValidator::is_valid` — src/protocol/messages.rs: the payload
length invariant of each message type. -/
def is_valid (m : Message) : Bool :=
  match m.message_type with
  | .Choke | .Unchoke | .Interested | .NotInterested => m.payload.isEmpty
  | .Have => decide (m.payload.length = 4)
  | .BitfieldMsg => !m.payload.isEmpty
  | .Request | .Cancel => decide (m.payload.length = 12)
  | .PieceMsg => decide (m.payload.length ≥ 8)
  | .Port => decide (m.payload.length = 2)
  | .KeepAlive => m.payload.isEmpty

end Message

/-- The 19-byte ASCII literal "BitTorrent protocol". -/
def protocolLiteral : List Nat :=
  [66, 105, 116, 84, 111, 114, 114, 101, 110, 116, 32,
   112, 114, 111, 116, 111, 99, 111, 108]

/-- Handshake — src/protocol/handshake.rs.  The fixed-size Rust arrays
(`[u8; 19]`, `[u8; 8]`, two `[u8; 20]`) are lists whose lengths are stated
as hypotheses where they matter. -/
structure Handshake where
  protocol_identifier : List Nat
  reserved : List Nat
  info_hash : Hash
  peer_id : PeerId
  deriving Repr, DecidableEq

namespace Handshake

/-- `Handshake::new`. -/
def new (infoHash : Hash) (peerId : PeerId) : Handshake :=
  { protocol_identifier := protocolLiteral,
    reserved := List.replicate 8 0,
    info_hash := infoHash,
    peer_id := peerId }

/-- `Handshake::serialize`: the identifier length byte
(`len() as u8`), the identifier, reserved, info hash and peer id. -/
def serialize (h : Handshake) : List Nat :=
  h.protocol_identifier.length % 256 ::
    (h.protocol_identifier ++ h.reserved ++ h.info_hash ++ h.peer_id)

/-- `Handshake::deserialize`: requires exactly 68 bytes, the length byte
19 and the literal identifier, then splits off the fixed-size fields. -/
def deserialize (data : List Nat) : Except IoErr Handshake :=
  if data.length ≠ 68 then .error .invalidData
  else
    let protocolLength := data.getD 0 0
    if protocolLength ≠ 19 then .error .invalidData
    else
      let pid := (data.drop 1).take 19
      if pid ≠ protocolLiteral then .error .invalidData
      else
        .ok { protocol_identifier := pid,
              reserved := (data.drop 20).take 8,
              info_hash := (data.drop 28).take 20,
              peer_id := (data.drop 48).take 20 }

end Handshake

/-- `ProtocolHandler::try_parse_message` — src/protocol/mod.rs: with fewer
than 4 buffered bytes, or fewer than the whole frame, it reports "no
message yet" and keeps the buffer; a zero length prefix yields a
Keep-Alive; otherwise the frame is split off and deserialized.  The
returned list is the buffer that remains (`self.buffer` after
`advance`).  There is no size cap on `message_length`. -/
def tryParseMessage (buffer : List Nat) :
    Except IoErr (Option Message × List Nat) :=
  if buffer.length < 4 then .ok (none, buffer)
  else
    let messageLength := getU32 buffer
    if messageLength = 0 then .ok (some Message.keep_alive, buffer.drop 4)
    else
      let totalLength := 4 + messageLength
      if buffer.length < totalLength then .ok (none, buffer)
      else
        match Message.deserialize (buffer.take totalLength) with
        | .ok m => .ok (some m, buffer.drop totalLength)
        | .error e => .error e

/-! ## Peer — src/peer/peer.rs -/

/-- Possible states for a peer connection. -/
inductive PeerState where
  | Disconnected
  | Connecting
  | Connected
  | Handshaking
  | Ready
  | Closing
  deriving Repr, DecidableEq

/-- Choking state for upload/download. -/
inductive ChokingState where
  | Choked
  | Unchoked
  deriving Repr, DecidableEq

/-- Interest state for download. -/
inductive InterestState where
  | NotInterested
  | Interested
  deriving Repr, DecidableEq

/-- A peer connection and its state.  `Instant`s are `Nat`s; the `f64`
rates are `Nat`s (only their ordering is used by the embedded code);
`pending_requests: HashMap<PieceIndex, Instant>` is an association
list. -/
structure Peer where
  id : PeerId
  address : SocketAddr
  state : PeerState
  bitfield : Bitfield
  am_choking : ChokingState
  peer_choking : ChokingState
  am_interested : InterestState
  peer_interested : InterestState
  download_rate : Nat
  upload_rate : Nat
  last_seen : Nat
  last_sent : Nat
  downloaded : Nat
  uploaded : Nat
  pending_requests : List (PieceIndex × Nat)
  max_requests : Nat
  supports_fast : Bool
  supports_extended : Bool
  deriving Repr, DecidableEq

namespace Peer

/-- `Peer::new` (`now` models `Instant::now()`). -/
def new (id : PeerId) (address : SocketAddr) (numPieces : Nat)
    (now : Nat) : Peer :=
  { id := id, address := address, state := .Disconnected,
    bitfield := Bitfield.new numPieces,
    am_choking := .Choked, peer_choking := .Choked,
    am_interested := .NotInterested, peer_interested := .NotInterested,
    download_rate := 0, upload_rate := 0,
    last_seen := now, last_sent := now,
    downloaded := 0, uploaded := 0,
    pending_requests := [], max_requests := 5,
    supports_fast := false, supports_extended := false }

/-- `Peer::can_request`: Ready, unchoked by the peer, interested, and
pipeline not full. -/
def can_request (p : Peer) : Bool :=
  decide (p.state = .Ready) && decide (p.peer_choking = .Unchoked) &&
    decide (p.am_interested = .Interested) &&
    decide (p.pending_requests.length < p.max_requests)

/-- `Peer::can_upload`: Ready, not choking the peer, and the peer is
interested. -/
def can_upload (p : Peer) : Bool :=
  decide (p.state = .Ready) && decide (p.am_choking = .Unchoked) &&
    decide (p.peer_interested = .Interested)

/-- `Peer::peer_has_piece`. -/
def peer_has_piece (p : Peer) (pieceIndex : PieceIndex) : Bool :=
  p.bitfield.has_piece pieceIndex

end Peer

/-! ## Peer registry — src/peer/manager.rs -/

/-- Manages all peer connections for a torrent.  The `HashMap<PeerId,
Peer>` is an association list (arbitrary iteration order fixed by the
list), the `HashSet<PeerId>` a duplicate-free list. -/
structure PeerManager where
  peers : List (PeerId × Peer)
  our_bitfield : Bitfield
  max_peers : Nat
  connection_timeout : Nat
  last_choke_time : Nat
  choke_interval : Nat
  unchoked_peers : List PeerId
  max_unchoked : Nat
  optimistic_unchoke : Option PeerId
  deriving Repr, DecidableEq

namespace PeerManager

/-- `PeerManager::new` (`now` models `Instant::now()`). -/
def new (numPieces : Nat) (maxPeers : Nat) (now : Nat) : PeerManager :=
  { peers := [],
    our_bitfield := Bitfield.new numPieces,
    max_peers := maxPeers,
    connection_timeout := 30,
    last_choke_time := now,
    choke_interval := 10,
    unchoked_peers := [],
    max_unchoked := 4,
    optimistic_unchoke := none }

/-- `PeerManager::add_peer`: rejects (with `PeerError::NotFound`!) when
the registry already holds `max_peers` peers; otherwise inserts the peer
if its id is new.  Returns the result together with the registry state
after the call. -/
def add_peer (pm : PeerManager) (peerId : PeerId) (address : SocketAddr)
    (now : Nat) : Except TorrentErr Unit × PeerManager :=
  if pm.peers.length ≥ pm.max_peers then
    (.error .peerNotFound, pm)
  else if ¬ alistHasKey pm.peers peerId then
    (.ok (),
     { pm with peers := (alistInsert pm.peers peerId
         (Peer.new peerId address pm.our_bitfield.total_pieces now)) })
  else
    (.ok (), pm)

/-- The `piece_counts` accumulation of `PeerManager::rarest_pieces`:
`*piece_counts.entry(piece_index).or_insert(0) += 1` (a fresh key lands at
the end of the association list). -/
def bumpCount (counts : List (PieceIndex × Nat)) (i : PieceIndex) :
    List (PieceIndex × Nat) :=
  match counts with
  | [] => [(i, 1)]
  | (j, c) :: rest =>
      if j = i then (j, c + 1) :: rest else (j, c) :: bumpCount rest i

/-- The comparison of `pieces.sort_by_key(|(_, count)| *count)`:
ascending count. -/
def countLE (a b : PieceIndex × Nat) : Prop :=
  a.2 ≤ b.2

instance : DecidableRel countLE := fun a b => Nat.decLe a.2 b.2

instance : IsTotal (PieceIndex × Nat) countLE :=
  ⟨fun a b => Nat.le_total a.2 b.2⟩

instance : IsTrans (PieceIndex × Nat) countLE :=
  ⟨fun _ _ _ => Nat.le_trans⟩

/-- `PeerManager::rarest_pieces`: counts, over Ready peers, how many
advertise each piece, then sorts the `(piece, count)` pairs ascending by
count (`sort_by_key`, modelled by the stable insertion sort). -/
def rarest_pieces (pm : PeerManager) : List (PieceIndex × Nat) :=
  let pieceCounts :=
    pm.peers.foldl
      (fun counts e =>
        if e.2.state = .Ready then
          e.2.bitfield.available_pieces.foldl bumpCount counts
        else counts)
      []
  List.insertionSort countLE pieceCounts

/-- The peer entries a piece-count of `rarest_pieces` ranges over: Ready
peers advertising the piece. -/
def readyCountList (peers : List (PeerId × Peer)) (i : PieceIndex) : Nat :=
  (peers.filter
    (fun e => decide (e.2.state = .Ready) && e.2.peer_has_piece i)).length

/-- Number of Ready peers of the registry advertising piece `i`. -/
def readyCount (pm : PeerManager) (i : PieceIndex) : Nat :=
  readyCountList pm.peers i

/-- The count-map entry a piece with `c` advertising Ready peers has:
absent for zero, else the count (used to state what `rarest_pieces`'s
accumulated `piece_counts` holds). -/
def countOpt (c : Nat) : Option Nat :=
  if c = 0 then none else some c

/-- The comparison of `update_choking`'s
`sort_by(|(_, a), (_, b)| b.upload_rate.partial_cmp(&a.upload_rate))`:
descending upload rate. -/
def rateGE (a b : PeerId × Peer) : Prop :=
  b.2.upload_rate ≤ a.2.upload_rate

instance : DecidableRel rateGE := fun a b =>
  Nat.decLe b.2.upload_rate a.2.upload_rate

/-- The `interested_peers` list of `PeerManager::update_choking` after its
in-place sort: interested peers sorted by upload rate descending
(`sort_by` modelled by the stable insertion sort). -/
def sortedInterested (pm : PeerManager) : List (PeerId × Peer) :=
  List.insertionSort rateGE
    (pm.peers.filter (fun e => e.2.peer_interested = .Interested))

/-- The regular-unchoke set of `PeerManager::update_choking`: ids of the
top `max_unchoked - 1` (saturating) interested uploaders. -/
def regularUnchokes (pm : PeerManager) : List PeerId :=
  ((pm.sortedInterested).take (pm.max_unchoked - 1)).map Prod.fst

/-- The optimistic-unchoke slot after one round of
`PeerManager::update_choking` (`reselect` models the random draw
`rand::random::<f32>() < 0.1`): when the slot is empty or the draw fires,
the first interested peer outside the regular set is chosen, keeping the
old slot if there is none; otherwise the old slot persists. -/
def optimisticChoice (pm : PeerManager) (reselect : Bool) :
    Option PeerId :=
  if pm.optimistic_unchoke.isNone || reselect then
    match ((pm.sortedInterested).filter
        (fun e => e.1 ∉ pm.regularUnchokes)).head? with
    | some e => some e.1
    | none => pm.optimistic_unchoke
  else pm.optimistic_unchoke

/-- The `new_unchoked` set of `PeerManager::update_choking`: the regular
unchokes plus the optimistic slot (`HashSet::insert`). -/
def newUnchokedSet (pm : PeerManager) (reselect : Bool) : List PeerId :=
  match pm.optimisticChoice reselect with
  | some p =>
      if p ∈ pm.regularUnchokes then pm.regularUnchokes
      else pm.regularUnchokes ++ [p]
  | none => pm.regularUnchokes

/-- `PeerManager::update_choking`, the body of one unchoke round (the
`last_choke_time.elapsed() < choke_interval` early return is the caller's
gate; `now` models `Instant::now()`).  Every peer's `am_choking` is
rewritten from the new unchoked set. -/
def update_choking (pm : PeerManager) (now : Nat) (reselect : Bool) :
    PeerManager :=
  { pm with
    last_choke_time := now,
    peers := pm.peers.map (fun e =>
      (e.1, { e.2 with am_choking :=
        if e.1 ∈ pm.newUnchokedSet reselect then .Unchoked
        else .Choked })),
    unchoked_peers := pm.newUnchokedSet reselect,
    optimistic_unchoke := pm.optimisticChoice reselect }

end PeerManager

/-! ## Auxiliary definitions for the theorem statements -/

instance {ε α : Type} [DecidableEq ε] [DecidableEq α] :
    DecidableEq (Except ε α) := fun x y =>
  match x, y with
  | .ok a, .ok b =>
      if h : a = b then .isTrue (by rw [h])
      else .isFalse (fun hc => h (Except.ok.inj hc))
  | .error a, .error b =>
      if h : a = b then .isTrue (by rw [h])
      else .isFalse (fun hc => h (Except.error.inj hc))
  | .ok _, .error _ => .isFalse (fun hc => Except.noConfusion hc)
  | .error _, .ok _ => .isFalse (fun hc => Except.noConfusion hc)

/-- Bit `i` of a raw big-endian packed bitfield byte string, following the
spec wording (big-endian packed bits, bit 0 of byte 0 is piece 0): bit
`7 - i % 8` of byte `i / 8`, and `false` past the end of the bytes. This
is the reference predicate the `from_bytes` theorem compares against. -/
def rawBit (bytes : List Nat) (i : Nat) : Bool :=
  decide (i / 8 < bytes.length) &&
    decide (bytes.getD (i / 8) 0 / 2 ^ (7 - i % 8) % 2 = 1)

/-- A stand-in for the external SHA-1 function on concrete runs: hashes
everything to twenty `1` bytes. -/
def sha1Const : List Nat → Hash := fun _ => List.replicate 20 1

/-- A stand-in for the external SHA-1 function on concrete runs whose
stored piece hashes are the payloads themselves. -/
def sha1Id : List Nat → Hash := fun d => d

/-- Concrete registry fixture: one Ready, interested peer with id `[1]`. -/
def peerFixture : Peer :=
  { Peer.new [1] 0 4 0 with state := .Ready, peer_interested := .Interested }

/-- Concrete registry fixture holding `peerFixture`. -/
def registryFixture : PeerManager :=
  { PeerManager.new 4 10 0 with peers := [([1], peerFixture)] }

/-! # Theorems -/

/-! ## C10 — out-of-range bitfield indices -/

/-- C10: bitfield index operations are total at the public interface: on a
bitfield of `n` pieces, `set_piece i` and `unset_piece i` with `i ≥ n`
leave the bitfield (hence its length) unchanged and `has_piece i` is
`false`; nothing panics. -/
theorem spec_C10_bitfield_out_of_range (bf : Bitfield) (i : PieceIndex)
    (hw : bf.bits.length = bf.num_pieces) (hi : bf.num_pieces ≤ i) :
    bf.set_piece i = bf ∧ bf.unset_piece i = bf ∧ bf.has_piece i = false := by
  have hlen : bf.bits.length ≤ i := by omega
  refine ⟨?_, ?_, ?_⟩
  · simp [Bitfield.set_piece, List.set_eq_of_length_le hlen]
  · simp [Bitfield.unset_piece, List.set_eq_of_length_le hlen]
  · simp [Bitfield.has_piece, List.getD, List.getElem?_eq_none hlen]

/-- Witness for C10 at the one-piece bitfield and index 3. -/
theorem spec_C10_witness :
    Bitfield.set_piece ⟨[false], 1⟩ 3 = ⟨[false], 1⟩ ∧
      Bitfield.unset_piece ⟨[false], 1⟩ 3 = ⟨[false], 1⟩ ∧
      Bitfield.has_piece ⟨[false], 1⟩ 3 = false :=
  spec_C10_bitfield_out_of_range ⟨[false], 1⟩ 3 (by decide) (by decide)

/-! ## C6 — request/upload permission predicates -/

/-- C6: `Peer::can_request` holds exactly in state Ready with
`peer_choking = Unchoked`, `am_interested = Interested` and strictly fewer
pending requests than the pipeline maximum, and `Peer::can_upload` holds
exactly in state Ready with `am_choking = Unchoked` and
`peer_interested = Interested`. -/
theorem spec_C6_permission_predicates (p : Peer) :
    (p.can_request = true ↔
      p.state = .Ready ∧ p.peer_choking = .Unchoked ∧
        p.am_interested = .Interested ∧
        p.pending_requests.length < p.max_requests) ∧
    (p.can_upload = true ↔
      p.state = .Ready ∧ p.am_choking = .Unchoked ∧
        p.peer_interested = .Interested) := by
  constructor <;> simp [Peer.can_request, Peer.can_upload, and_assoc]

/-! ## C9 — full registry rejects a fresh peer -/

/-- C9: when the registry already holds `max_peers` peers, adding a fresh
peer id fails with an error (`PeerError::NotFound`) and the registry state
is unchanged. -/
theorem spec_C9_registry_full (pm : PeerManager) (pid : PeerId)
    (addr : SocketAddr) (now : Nat)
    (hfull : pm.peers.length = pm.max_peers)
    (_hfresh : alistHasKey pm.peers pid = false) :
    pm.add_peer pid addr now = (.error .peerNotFound, pm) := by
  simp [PeerManager.add_peer, hfull]

/-- Witness for C9: a registry with capacity 1 holding one peer rejects a
fresh peer id and is left unchanged. -/
theorem spec_C9_witness :
    PeerManager.add_peer
        { PeerManager.new 1 1 0 with peers := [([0], Peer.new [0] 0 1 0)] }
        [7] 9 0 =
      (.error .peerNotFound,
       { PeerManager.new 1 1 0 with peers := [([0], Peer.new [0] 0 1 0)] }) :=
  spec_C9_registry_full _ _ _ _ (by decide) (by decide)

/-! ## C3 — no frame-size cap in the streaming decoder -/

/-- C3 (failing input): with the 4-byte big-endian length prefix
`00 02 00 01` — 131073 bytes, exceeding the claimed 2^17-byte cap — the
streaming decoder `try_parse_message` returns `Ok(None)` and keeps the
bytes buffered, i.e. it proceeds to buffer (and would eventually parse)
the oversized frame; no `MessageTooLarge` error is raised anywhere (the
variant exists in src/core/error.rs but is never constructed). -/
theorem spec_C3_no_size_cap :
    tryParseMessage [0, 2, 0, 1] = .ok (none, [0, 2, 0, 1]) ∧
      2 ^ 17 < getU32 [0, 2, 0, 1] := by
  constructor
  · decide
  · decide

/-! ## C7 — bitfield decoding -/

/-- Bit `i` of the bit list of one byte, as a division/mod formula. -/
theorem byteBits_getD (b i : Nat) (h : i < 8) :
    (Bitfield.byteBits b).getD i false = decide (b / 2 ^ (7 - i) % 2 = 1) := by
  interval_cases i <;>
    simp [Bitfield.byteBits, Nat.shiftRight_eq_div_pow, Nat.and_one_is_mod]

/-- The flattened bit stream of a byte string agrees with `rawBit`. -/
theorem flatten_byteBits_getD (bytes : List Nat) (i : Nat) :
    ((bytes.map Bitfield.byteBits).flatten).getD i false = rawBit bytes i := by
  induction bytes generalizing i with
  | nil => simp [rawBit]
  | cons b rest ih =>
      have hlen : (Bitfield.byteBits b).length = 8 := rfl
      by_cases h : i < 8
      · rw [List.map_cons, List.flatten_cons, List.getD_append _ _ _ _ (by omega),
          byteBits_getD b i h]
        have h0 : i / 8 = 0 := Nat.div_eq_of_lt h
        have h1 : i % 8 = i := Nat.mod_eq_of_lt h
        simp [rawBit, h0, h1]
      · rw [List.map_cons, List.flatten_cons,
          List.getD_append_right _ _ _ _ (by omega)]
        rw [hlen, ih (i - 8)]
        have h1 : i / 8 = (i - 8) / 8 + 1 := by omega
        have h2 : i % 8 = (i - 8) % 8 := by omega
        simp [rawBit, h1, h2]

/-- `getD` through truncation to `n` bits followed by zero padding. -/
theorem padTake_getD (s : List Bool) (n i : Nat) :
    ((s.take n) ++ List.replicate (n - (s.take n).length) false).getD i false
      = (decide (i < n) && s.getD i false) := by
  induction s generalizing n i with
  | nil =>
      simp only [List.take_nil, List.nil_append, List.length_nil,
        Nat.sub_zero, List.getD_nil, Bool.and_false]
      induction n generalizing i with
      | zero => simp
      | succ m ihm =>
          cases i with
          | zero => simp [List.replicate_succ]
          | succ j => simpa [List.replicate_succ] using ihm j
  | cons a s' ih =>
      cases n with
      | zero => simp
      | succ m =>
          cases i with
          | zero => simp [List.take_succ_cons]
          | succ j =>
              simpa [List.take_succ_cons, Nat.succ_sub_succ] using ih m j

/-- C7 (counterexample): decoding the raw byte `0xFF` against a 4-piece
torrent succeeds — `from_bytes` is total, silently truncating the four
trailing non-zero bits — even though the raw bytes contain non-zero bits
at positions ≥ 4, where the claim demands a rejection with
`ProtocolError::InvalidBitfield` (a variant that does not even exist in
src/core/error.rs). -/
theorem spec_C7_counterexample :
    Bitfield.from_bytes [255] 4 = ⟨[true, true, true, true], 4⟩ := by
  decide

/-- C7 (amended): for every raw byte string and every piece count,
`Bitfield::from_bytes` always succeeds with a bitfield of exactly
`n_pieces` bits: bit `i` is raw bit `i` (big-endian packed) for
`i < n_pieces` — extra raw bits, zero or not, are truncated — and `false`
where the raw input is short (zero-extension). -/
theorem spec_C7_from_bytes_total (bytes : List Nat) (n : Nat) :
    (Bitfield.from_bytes bytes n).num_pieces = n ∧
    (Bitfield.from_bytes bytes n).bits.length = n ∧
    ∀ i, (Bitfield.from_bytes bytes n).has_piece i =
      (decide (i < n) && rawBit bytes i) := by
  refine ⟨rfl, ?_, ?_⟩
  · simp only [Bitfield.from_bytes, List.length_append,
      List.length_replicate, List.length_take]
    omega
  · intro i
    simp only [Bitfield.from_bytes, Bitfield.has_piece]
    rw [padTake_getD, flatten_byteBits_getD]

/-! ## C1 — submitting piece data -/

/-- Looking up the key just inserted. -/
theorem alistGet_insert_self {α β : Type} [DecidableEq α]
    (l : List (α × β)) (k : α) (v : β) :
    alistGet (alistInsert l k v) k = some v := by
  induction l with
  | nil => simp [alistInsert, alistGet]
  | cons e rest ih =>
      by_cases h : e.1 = k <;> simp [alistInsert, alistGet, h, ih]

/-- Setting a bit in range makes `has_piece` true. -/
theorem has_piece_set_piece (bf : Bitfield) (i : PieceIndex)
    (h : i < bf.bits.length) : (bf.set_piece i).has_piece i = true := by
  simp [Bitfield.set_piece, Bitfield.has_piece, List.getD,
    List.getElem?_set_eq h]

/-- C1 (amended): submitting a payload for a valid piece index computes
its SHA-1; on a hash match the call returns `Ok(true)`, the piece's data
is stored with `verified = true` and the per-torrent bitfield bit is set;
on a mismatch the call returns `Ok(false)` and the state is unchanged
except that the piece's data is overwritten with the unverified payload
and its `verified` flag is set to `false` (the bitfield, the cache and
everything else are untouched — but the original claim's "state exactly
as before" fails because `Piece::set_data` stores the payload before
verifying it). -/
theorem spec_C1_submit (sha1 : List Nat → Hash)
    (choose : List PieceIndex → Option PieceIndex) (pm : PieceManager)
    (i : PieceIndex) (data : List Nat) (piece : Piece)
    (hi : i < pm.num_pieces)
    (hpiece : alistGet pm.pieces i = some piece)
    (hbits : pm.bitfield.bits.length = pm.num_pieces) :
    (sha1 data = piece.hash →
      ∃ pm', pm.add_piece_data sha1 choose i data = .ok (true, pm') ∧
        alistGet pm'.pieces i =
          some { piece with data := some data, verified := true } ∧
        pm'.bitfield = pm.bitfield.set_piece i ∧
        pm'.bitfield.has_piece i = true) ∧
    (sha1 data ≠ piece.hash →
      pm.add_piece_data sha1 choose i data =
        .ok (false, { pm with pieces := (alistInsert pm.pieces i
          { piece with data := some data, verified := false }) })) := by
  constructor
  · intro h
    have hd : decide (sha1 data = piece.hash) = true := by simp [h]
    refine ⟨{ pm with
        pieces := (alistInsert pm.pieces i
          { piece with data := some data, verified := true }),
        bitfield := pm.bitfield.set_piece i,
        piece_cache := (alistInsert
          (if pm.piece_cache.length ≥ pm.cache_size then
            match choose (pm.piece_cache.map Prod.fst) with
            | some oldestKey => alistRemove pm.piece_cache oldestKey
            | none => pm.piece_cache
          else pm.piece_cache) i data) }, ?_, ?_, ?_, ?_⟩
    · simp [PieceManager.add_piece_data, PieceManager.is_valid_piece, hi,
        hpiece, Piece.set_data, Piece.verify, hd]
    · simp [alistGet_insert_self]
    · rfl
    · exact has_piece_set_piece pm.bitfield i (by rw [hbits]; exact hi)
  · intro h
    have hd : decide (sha1 data = piece.hash) = false := by simp [h]
    simp [PieceManager.add_piece_data, PieceManager.is_valid_piece, hi,
      hpiece, Piece.set_data, Piece.verify, hd]

/-- C1 (counterexample): submitting the payload `[42]` against a stored
hash it does not match returns `Ok(false)` — but the piece's `data`
field, `none` before the call, now holds the unverified payload
`some [42]`: the state is not "exactly as it was before the call". -/
theorem spec_C1_counterexample :
    PieceManager.add_piece_data sha1Const List.head?
        (PieceManager.new [List.replicate 20 2] 16 8) 0 [42] =
      .ok (false,
        { pieces := [(0, { index := 0, data := some [42],
                           hash := List.replicate 20 2, verified := false,
                           in_flight := false, last_requested := none })],
          bitfield := { bits := [false], num_pieces := 1 },
          piece_length := 16, num_pieces := 1,
          piece_cache := [], cache_size := 8 }) ∧
    alistGet (PieceManager.new [List.replicate 20 2] 16 8).pieces 0 =
      some { index := 0, data := none, hash := List.replicate 20 2,
             verified := false, in_flight := false,
             last_requested := none } := by
  constructor
  · decide
  · decide

/-- Witness for C1 (amended) at a matching one-piece store. -/
theorem spec_C1_witness :
    ∃ pm', PieceManager.add_piece_data sha1Const List.head?
        (PieceManager.new [List.replicate 20 1] 16 8) 0 [42] =
          .ok (true, pm') ∧
      alistGet pm'.pieces 0 =
        some { index := 0, data := some [42], hash := List.replicate 20 1,
               verified := true, in_flight := false,
               last_requested := none } ∧
      pm'.bitfield =
        (PieceManager.new [List.replicate 20 1] 16 8).bitfield.set_piece 0 ∧
      pm'.bitfield.has_piece 0 = true :=
  (spec_C1_submit sha1Const List.head?
      (PieceManager.new [List.replicate 20 1] 16 8) 0 [42]
      (Piece.new 0 (List.replicate 20 1))
      (by decide) (by decide) (by decide)).1 (by decide)

/-! ## C2 — encode/decode round trips -/

/-- Reading back a big-endian u32 written by `put_u32`. -/
theorem getU32_putU32 (n : Nat) (rest : List Nat) :
    getU32 (putU32 n ++ rest) = n % 2 ^ 32 := by
  simp only [putU32, getU32, List.cons_append, List.nil_append,
    List.getD_cons_zero, List.getD_cons_succ]
  omega

/-- The u8 round trip of the eleven message type ids. -/
theorem ofU8_toU8 (t : MessageType) : MessageType.ofU8 t.toU8 = t := by
  cases t <;> rfl

/-- `take` at the length of the left append factor. -/
theorem take_append_len {α : Type} (l m : List α) (n : Nat)
    (h : l.length = n) : (l ++ m).take n = l := by
  subst h; exact List.take_left l m

/-- `drop` at the length of the left append factor. -/
theorem drop_append_len {α : Type} (l m : List α) (n : Nat)
    (h : l.length = n) : (l ++ m).drop n = m := by
  subst h; exact List.drop_left l m

/-- Message half of the round trip: any message whose length field does
not overflow the `as u32` cast deserializes back from its encoding. -/
theorem message_deserialize_serialize (m : Message)
    (hlen : m.payload.length + 1 < 2 ^ 32) :
    Message.deserialize (Message.serialize m) = .ok m := by
  have hser : Message.serialize m =
      putU32 (1 + m.payload.length) ++ m.message_type.toU8 :: m.payload :=
    rfl
  have hget : getU32 (Message.serialize m) = 1 + m.payload.length := by
    rw [hser, getU32_putU32]; omega
  have hlen5 : (Message.serialize m).length = 5 + m.payload.length := by
    simp [hser, putU32]
    omega
  have hsub : 1 + m.payload.length - 1 = m.payload.length := by omega
  have hdrop : (Message.serialize m).drop 5 = m.payload := by
    simp [hser, putU32]
  have hbyte : (Message.serialize m).getD 4 0 = m.message_type.toU8 := by
    simp [hser, putU32]
  rw [Message.deserialize]
  rw [hget, hlen5, hdrop, hbyte]
  have c1 : ¬ (5 + m.payload.length < 5) := by omega
  have c2 : ¬ (1 + m.payload.length = 0) := by omega
  have c3 : ¬ (5 + m.payload.length < 5 + (1 + m.payload.length) - 1) := by
    omega
  rw [if_neg c1, if_neg c2, if_neg c3, hsub, List.take_length, ofU8_toU8]

/-- Handshake half of the round trip: a handshake whose
`protocol_identifier` is the 19-byte literal (as every handshake built by
`Handshake::new` is — in Rust the field lengths are fixed by the array
types) deserializes back from its encoding. -/
theorem handshake_deserialize_serialize (h : Handshake)
    (hpid : h.protocol_identifier = protocolLiteral)
    (hr : h.reserved.length = 8) (hih : h.info_hash.length = 20)
    (hpe : h.peer_id.length = 20) :
    Handshake.deserialize (Handshake.serialize h) = .ok h := by
  obtain ⟨pid, res, ih, pe⟩ := h
  simp only at hpid hr hih hpe
  subst hpid
  have hpl : protocolLiteral.length = 19 := rfl
  have hser : Handshake.serialize ⟨protocolLiteral, res, ih, pe⟩ =
      19 :: (((protocolLiteral ++ res) ++ ih) ++ pe) := by
    rw [Handshake.serialize]
    simp [hpl]
  have f1 : (Handshake.serialize ⟨protocolLiteral, res, ih, pe⟩).length
      = 68 := by
    rw [hser]
    simp [hr, hih, hpe, hpl]
  have f2 : (Handshake.serialize ⟨protocolLiteral, res, ih, pe⟩).getD 0 0
      = 19 := by
    rw [hser]; rfl
  have f3 : ((Handshake.serialize ⟨protocolLiteral, res, ih, pe⟩).drop
      1).take 19 = protocolLiteral := by
    rw [hser, List.drop_succ_cons, List.drop_zero,
      List.take_append_of_le_length (by simp [hpl]),
      List.take_append_of_le_length (by simp [hpl]),
      List.take_append_of_le_length (by simp [hpl]), ← hpl,
      List.take_length]
  have f4 : ((Handshake.serialize ⟨protocolLiteral, res, ih, pe⟩).drop
      20).take 8 = res := by
    have e : ((protocolLiteral ++ res) ++ ih) ++ pe =
        protocolLiteral ++ (res ++ (ih ++ pe)) := by
      simp [List.append_assoc]
    rw [hser, List.drop_succ_cons, e, drop_append_len _ _ 19 hpl,
      take_append_len _ _ _ hr]
  have f5 : ((Handshake.serialize ⟨protocolLiteral, res, ih, pe⟩).drop
      28).take 20 = ih := by
    have e : ((protocolLiteral ++ res) ++ ih) ++ pe =
        (protocolLiteral ++ res) ++ (ih ++ pe) := by
      simp [List.append_assoc]
    rw [hser, List.drop_succ_cons, e,
      drop_append_len _ _ 27 (by simp [hpl, hr]),
      take_append_len _ _ _ hih]
  have f6 : ((Handshake.serialize ⟨protocolLiteral, res, ih, pe⟩).drop
      48).take 20 = pe := by
    rw [hser, List.drop_succ_cons,
      drop_append_len _ _ 47 (by simp [hpl, hr, hih]), ← hpe,
      List.take_length]
  rw [Handshake.deserialize, f1, f2, f3, f4, f5, f6]
  simp

/-- C2 (amended): decode∘encode is the identity on every message whose
payload length matches its type's invariant and (as the counterexample
forces) whose length field `1 + payload.len()` does not overflow the
`as u32` cast, and on every handshake whose `protocol_identifier` is the
19-byte literal "BitTorrent protocol" (with the field lengths fixed in
Rust by the array types `[u8; 19]`, `[u8; 8]`, `[u8; 20]`, `[u8; 20]`). -/
theorem spec_C2_roundtrip :
    (∀ m : Message, m.is_valid = true → m.payload.length + 1 < 2 ^ 32 →
      Message.deserialize (Message.serialize m) = .ok m) ∧
    (∀ h : Handshake, h.protocol_identifier = protocolLiteral →
      h.reserved.length = 8 → h.info_hash.length = 20 →
      h.peer_id.length = 20 →
      Handshake.deserialize (Handshake.serialize h) = .ok h) :=
  ⟨fun m _ hlen => message_deserialize_serialize m hlen,
   fun h hpid hr hih hpe =>
     handshake_deserialize_serialize h hpid hr hih hpe⟩

/-- C2 (counterexample): the round trip fails as stated, in two ways.  A
handshake whose `protocol_identifier` is not the literal (here: nineteen
zero bytes) serializes fine but is rejected by `deserialize`.  And the
well-formed Bitfield message with `2^32 - 1` payload bytes overflows the
`as u32` cast in `serialize` (length field `2^32` truncates to `0`), so it
deserializes to a Keep-Alive instead of itself. -/
theorem spec_C2_counterexample :
    Handshake.deserialize (Handshake.serialize
        ⟨List.replicate 19 0, List.replicate 8 0, List.replicate 20 0,
         List.replicate 20 0⟩) = .error .invalidData ∧
    Message.is_valid ⟨.BitfieldMsg, List.replicate (2 ^ 32 - 1) 0⟩ = true ∧
    Message.deserialize (Message.serialize
        ⟨.BitfieldMsg, List.replicate (2 ^ 32 - 1) 0⟩) =
      .ok Message.keep_alive ∧
    (⟨.BitfieldMsg, List.replicate (2 ^ 32 - 1) 0⟩ : Message) ≠
      Message.keep_alive := by
  have hplen : (List.replicate (2 ^ 32 - 1) (0 : Nat)).length = 2 ^ 32 - 1 :=
    List.length_replicate _ _
  have hgen : ∀ pl : List Nat, Message.serialize ⟨.BitfieldMsg, pl⟩ =
      putU32 (1 + pl.length) ++ 5 :: pl := fun _ => rfl
  have hser : Message.serialize ⟨.BitfieldMsg, List.replicate (2 ^ 32 - 1) 0⟩
      = putU32 (1 + (2 ^ 32 - 1)) ++ 5 :: List.replicate (2 ^ 32 - 1) 0 := by
    rw [hgen, hplen]
  have hget : getU32 (Message.serialize
      ⟨.BitfieldMsg, List.replicate (2 ^ 32 - 1) 0⟩) = 0 := by
    rw [hser, getU32_putU32]
    norm_num
  have hp4 : (putU32 (1 + (2 ^ 32 - 1))).length = 4 := rfl
  have hL : (Message.serialize
      ⟨.BitfieldMsg, List.replicate (2 ^ 32 - 1) 0⟩).length
      = 4 + (1 + (2 ^ 32 - 1)) := by
    rw [hser, List.length_append, List.length_cons, hplen, hp4]
    omega
  refine ⟨by decide, ?_, ?_, ?_⟩
  · have hv : ∀ pl : List Nat, Message.is_valid ⟨.BitfieldMsg, pl⟩ =
        !pl.isEmpty := fun _ => rfl
    rw [hv, List.isEmpty_eq_false.2 (List.ne_nil_of_length_pos
      (by rw [hplen]; norm_num))]
    rfl
  · rw [Message.deserialize, hget, hL]
    norm_num
  · intro hcontra
    exact MessageType.noConfusion (congrArg Message.message_type hcontra)

/-- Witness for C2 at a Have message and a `Handshake::new` handshake. -/
theorem spec_C2_witness :
    Message.deserialize (Message.serialize ⟨.Have, [0, 0, 0, 123]⟩) =
      .ok ⟨.Have, [0, 0, 0, 123]⟩ ∧
    Handshake.deserialize (Handshake.serialize
        (Handshake.new (List.replicate 20 1) (List.replicate 20 2))) =
      .ok (Handshake.new (List.replicate 20 1) (List.replicate 20 2)) :=
  ⟨spec_C2_roundtrip.1 _ (by decide) (by decide),
   spec_C2_roundtrip.2 _ rfl rfl rfl rfl⟩

/-! ## C8 — cache policy -/

/-- Inserting grows an association list by at most one entry. -/
theorem length_alistInsert_le {α β : Type} [DecidableEq α]
    (l : List (α × β)) (k : α) (v : β) :
    (alistInsert l k v).length ≤ l.length + 1 := by
  induction l with
  | nil => simp [alistInsert]
  | cons e rest ih =>
      by_cases h : e.1 = k <;> simp [alistInsert, h] <;> omega

/-- Removing a present key shrinks an association list by exactly one. -/
theorem length_alistRemove_mem {α β : Type} [DecidableEq α]
    (l : List (α × β)) (k : α) (hk : k ∈ l.map Prod.fst) :
    (alistRemove l k).length + 1 = l.length := by
  induction l with
  | nil => simp at hk
  | cons e rest ih =>
      by_cases h : e.1 = k
      · simp [alistRemove, h]
      · have hk' : k ∈ rest.map Prod.fst := by
          rcases List.mem_map.1 hk with ⟨x, hx, hfst⟩
          rcases List.mem_cons.1 hx with rfl | hxr
          · exact absurd hfst h
          · exact List.mem_map.2 ⟨x, hxr, hfst⟩
        simp [alistRemove, h, ih hk']

/-- Removing never grows an association list. -/
theorem length_alistRemove_le {α β : Type} [DecidableEq α]
    (l : List (α × β)) (k : α) :
    (alistRemove l k).length ≤ l.length := by
  induction l with
  | nil => simp [alistRemove]
  | cons e rest ih =>
      by_cases h : e.1 = k <;> simp [alistRemove, h] <;> omega

/-- One `submit` preserves the cache bound (for `cache_size ≥ 1`) and the
configured capacity. -/
theorem add_piece_data_cache_bound (sha1 : List Nat → Hash)
    (choose : List PieceIndex → Option PieceIndex)
    (hch : CacheChoice choose) (pm : PieceManager) (i : PieceIndex)
    (data : List Nat) (hcs : 1 ≤ pm.cache_size)
    (hinv : pm.piece_cache.length ≤ pm.cache_size) :
    ∀ v pm', pm.add_piece_data sha1 choose i data = .ok (v, pm') →
      pm'.cache_size = pm.cache_size ∧
        pm'.piece_cache.length ≤ pm.cache_size := by
  intro v pm' h
  by_cases hv : pm.is_valid_piece i = true
  · rcases hget : alistGet pm.pieces i with _ | piece
    · rw [PieceManager.add_piece_data, if_neg (by simp [hv]), hget] at h
      exact absurd h (by simp)
    · rw [PieceManager.add_piece_data, if_neg (by simp [hv]), hget] at h
      simp only [Piece.set_data, Piece.verify] at h
      rcases hdec : decide (sha1 data = piece.hash) with _ | _
      · rw [hdec] at h
        simp only [Bool.false_eq_true, if_false] at h
        obtain ⟨h1, h2⟩ := Prod.mk.inj (Except.ok.inj h)
        subst h2
        exact ⟨rfl, hinv⟩
      · rw [hdec] at h
        simp only [if_true] at h
        obtain ⟨h1, h2⟩ := Prod.mk.inj (Except.ok.inj h)
        subst h2
        refine ⟨rfl, ?_⟩
        by_cases hfull : pm.piece_cache.length ≥ pm.cache_size
        · simp only [hfull, if_true]
          have hne : pm.piece_cache.map Prod.fst ≠ [] := by
            intro hnil
            have : pm.piece_cache.length = 0 := by
              simpa using congrArg List.length hnil
            omega
          have hc := hch (pm.piece_cache.map Prod.fst)
          rcases hck : choose (pm.piece_cache.map Prod.fst) with _ | k
          · rw [hck] at hc; exact absurd hc hne
          · rw [hck] at hc
            simp only
            calc (alistInsert (alistRemove pm.piece_cache k) i
                    data).length
                ≤ (alistRemove pm.piece_cache k).length + 1 :=
                  length_alistInsert_le _ _ _
              _ = pm.piece_cache.length :=
                  length_alistRemove_mem _ _ hc
              _ ≤ pm.cache_size := hinv
        · simp only [hfull, if_false]
          have := length_alistInsert_le pm.piece_cache i data
          omega
  · rw [PieceManager.add_piece_data, if_pos (by simpa using hv)] at h
    exact absurd h (by simp)

/-- C8 (amended): starting from a fresh piece store with `cache_size ≥ 1`,
every sequence of piece-store operations keeps the in-memory cache at no
more than `cache_size` entries; and (as the counterexample shows) when an
insertion requires eviction the entry evicted is the one the hash map's
key iteration yields first — an arbitrary entry, not the least recently
used: the store keeps no recency information and reads (`&self`) do not
touch the cache at all. -/
theorem spec_C8_cache_bound (sha1 : List Nat → Hash)
    (choose : List PieceIndex → Option PieceIndex)
    (hch : CacheChoice choose) (hashes : List Hash) (plen csize : Nat)
    (hcs : 1 ≤ csize) (ops : List PieceManager.Op) :
    (PieceManager.runOps sha1 choose (PieceManager.new hashes plen csize)
      ops).piece_cache.length ≤ csize := by
  have step : ∀ (pm : PieceManager) (op : PieceManager.Op),
      pm.cache_size = csize → pm.piece_cache.length ≤ csize →
      (PieceManager.runOp sha1 choose pm op).cache_size = csize ∧
        (PieceManager.runOp sha1 choose pm op).piece_cache.length ≤
          csize := by
    intro pm op h1 h2
    cases op with
    | submit i d =>
        rcases hres : pm.add_piece_data sha1 choose i d with e | r
        · simpa [PieceManager.runOp, hres] using ⟨h1, h2⟩
        · have := add_piece_data_cache_bound sha1 choose hch pm i d
            (by omega) (by omega) r.1 r.2 (by rw [hres])
          simp only [PieceManager.runOp, hres]
          exact ⟨by rw [this.1, h1], by rw [← h1]; exact this.2⟩
    | read i => exact ⟨h1, h2⟩
    | evict i =>
        refine ⟨h1, ?_⟩
        simp only [PieceManager.runOp, PieceManager.evict_from_cache]
        have := length_alistRemove_le pm.piece_cache i
        omega
    | clear =>
        refine ⟨h1, ?_⟩
        simp [PieceManager.runOp, PieceManager.clear_cache]
  have main : ∀ (ops : List PieceManager.Op) (pm : PieceManager),
      pm.cache_size = csize → pm.piece_cache.length ≤ csize →
      (PieceManager.runOps sha1 choose pm ops).piece_cache.length ≤
        csize := by
    intro ops
    induction ops with
    | nil => intro pm _ h2; exact h2
    | cons op rest ih =>
        intro pm h1 h2
        have hs := step pm op h1 h2
        exact ih _ hs.1 hs.2
  exact main ops _ rfl (by simp [PieceManager.new])

/-- `HashMap::keys().next()` modelled as the head of the key list is an
admissible iteration order. -/
theorem headCacheChoice : CacheChoice List.head? := by
  intro l
  cases l <;> simp

/-- C8 (counterexample): two concrete violations of the claim.  With
`cache_size = 0`, one accepted submit leaves one cache entry, breaking
the "at most cache_size entries" bound.  And with `cache_size = 2` under
the head-of-keys iteration order, the run submit 0, submit 1, read 0,
submit 2 evicts entry 0 — the entry used most recently (by the read) —
while entry 1, the least recently used, survives (final cache keys
`[1, 2]`): reads update no recency state (`get_piece_data` takes `&self`),
so eviction is not LRU. -/
theorem spec_C8_counterexample :
    (PieceManager.runOps sha1Id List.head? (PieceManager.new [[10]] 16 0)
      [.submit 0 [10]]).piece_cache.length = 1 ∧
    (PieceManager.runOps sha1Id List.head? (PieceManager.new [[10]] 16 0)
      [.submit 0 [10]]).cache_size = 0 ∧
    (PieceManager.runOps sha1Id List.head?
        (PieceManager.new [[10], [20], [30]] 16 2)
        [.submit 0 [10], .submit 1 [20], .read 0, .submit 2 [30]]
      ).piece_cache.map Prod.fst = [1, 2] := by
  refine ⟨by decide, by decide, by decide⟩

/-- Witness for C8 at the head-of-keys iteration order, capacity 1 and a
double submit of the same piece. -/
theorem spec_C8_witness :
    (PieceManager.runOps sha1Id List.head? (PieceManager.new [[10]] 16 1)
      [.submit 0 [10], .submit 0 [10]]).piece_cache.length ≤ 1 :=
  spec_C8_cache_bound sha1Id List.head? headCacheChoice [[10]] 16 1
    (by decide) [.submit 0 [10], .submit 0 [10]]

/-! ## C5 — choking round invariants -/

/-- A duplicate-free list contained in another list is no longer. -/
theorem nodup_subset_length {α : Type} [DecidableEq α] (xs ys : List α)
    (hnd : xs.Nodup) (hsub : xs ⊆ ys) : xs.length ≤ ys.length :=
  calc xs.length = xs.toFinset.card := (List.toFinset_card_of_nodup hnd).symm
    _ ≤ ys.toFinset.card := Finset.card_le_card
        (fun a ha => List.mem_toFinset.2 (hsub (List.mem_toFinset.1 ha)))
    _ ≤ ys.length := ys.toFinset_card_le

/-- The regular-unchoke ids are duplicate-free. -/
theorem regularUnchokes_nodup (pm : PeerManager)
    (hnd : (pm.peers.map Prod.fst).Nodup) :
    (pm.regularUnchokes).Nodup := by
  have hsortnd : ((pm.sortedInterested).map Prod.fst).Nodup := by
    rw [PeerManager.sortedInterested]
    refine ((List.perm_insertionSort PeerManager.rateGE _).map Prod.fst).nodup_iff.2 ?_
    exact hnd.sublist ((List.filter_sublist pm.peers).map Prod.fst)
  rw [PeerManager.regularUnchokes]
  exact hsortnd.sublist ((List.take_sublist _ _).map Prod.fst)

/-- The new unchoked set is duplicate-free and no larger than
`max_unchoked` (for `max_unchoked ≥ 1`). -/
theorem newUnchokedSet_nodup_length (pm : PeerManager) (reselect : Bool)
    (hnd : (pm.peers.map Prod.fst).Nodup) (hmax : 1 ≤ pm.max_unchoked) :
    (pm.newUnchokedSet reselect).Nodup ∧
      (pm.newUnchokedSet reselect).length ≤ pm.max_unchoked := by
  have hreg : (pm.regularUnchokes).Nodup := regularUnchokes_nodup pm hnd
  have hlen : (pm.regularUnchokes).length ≤ pm.max_unchoked - 1 := by
    simp only [PeerManager.regularUnchokes, List.length_map]
    exact le_trans (List.length_take_le _ _) (le_refl _)
  rcases h : pm.optimisticChoice reselect with _ | p
  · simp only [PeerManager.newUnchokedSet, h]
    exact ⟨hreg, by omega⟩
  · simp only [PeerManager.newUnchokedSet, h]
    by_cases hp : p ∈ pm.regularUnchokes
    · simp only [hp, if_true]
      exact ⟨hreg, by omega⟩
    · simp only [hp, if_false]
      constructor
      · exact List.nodup_append.2 ⟨hreg, List.nodup_singleton p,
          fun a ha hpa => hp (by
            rcases List.mem_singleton.1 hpa with rfl
            exact ha)⟩
      · simp only [List.length_append, List.length_singleton]
        omega

/-- Counting unchoked entries after rewriting `am_choking` from a
membership test: with duplicate-free registry keys, at most as many
entries are unchoked as the unchoked set has ids. -/
theorem filter_unchoked_length (peers : List (PeerId × Peer))
    (nu : List PeerId) (hnd : (peers.map Prod.fst).Nodup) :
    ((peers.map (fun e => (e.1, { e.2 with am_choking :=
        (if e.1 ∈ nu then ChokingState.Unchoked
         else ChokingState.Choked) }))).filter
      (fun e => decide (e.2.am_choking = ChokingState.Unchoked))).length
      ≤ nu.length := by
  rw [List.filter_map, List.length_map]
  have hcong : peers.filter ((fun e =>
        decide (e.2.am_choking = ChokingState.Unchoked)) ∘
      (fun e => (e.1, { e.2 with am_choking :=
        (if e.1 ∈ nu then ChokingState.Unchoked
         else ChokingState.Choked) }))) =
      peers.filter (fun e => decide (e.1 ∈ nu)) := by
    apply List.filter_congr
    intro e _
    by_cases h : e.1 ∈ nu <;> simp [Function.comp, h]
  rw [hcong]
  have hsub : (peers.filter (fun e => decide (e.1 ∈ nu))).map Prod.fst
      ⊆ nu := by
    intro a ha
    rcases List.mem_map.1 ha with ⟨e, he, rfl⟩
    simpa using (List.of_mem_filter he)
  have hnd' : ((peers.filter
      (fun e => decide (e.1 ∈ nu))).map Prod.fst).Nodup :=
    ((List.filter_sublist _).map Prod.fst).nodup hnd
  calc (peers.filter (fun e => decide (e.1 ∈ nu))).length
      = ((peers.filter (fun e => decide (e.1 ∈ nu))).map
          Prod.fst).length := (List.length_map _ _).symm
    _ ≤ nu.length := nodup_subset_length _ _ hnd' hsub

/-- C5: after one run of the choking round, at most `max_unchoked` peers
(default 4; the proof assumes the default-satisfying `max_unchoked ≥ 2`,
and `PeerManager::new` always sets 4) have `am_choking = Unchoked`, and if
at least one peer is Interested then at least one Interested peer is
Unchoked. -/
theorem spec_C5_choking (pm : PeerManager) (now : Nat) (reselect : Bool)
    (hnd : (pm.peers.map Prod.fst).Nodup) (hmax : 2 ≤ pm.max_unchoked) :
    (((pm.update_choking now reselect).peers.filter
        (fun e => decide (e.2.am_choking = ChokingState.Unchoked))).length
      ≤ pm.max_unchoked) ∧
    ((∃ e ∈ pm.peers, e.2.peer_interested = InterestState.Interested) →
      ∃ e ∈ (pm.update_choking now reselect).peers,
        e.2.peer_interested = InterestState.Interested ∧
        e.2.am_choking = ChokingState.Unchoked) := by
  have hpeers : (pm.update_choking now reselect).peers =
      pm.peers.map (fun e => (e.1, { e.2 with am_choking :=
        (if e.1 ∈ (pm.newUnchokedSet reselect) then ChokingState.Unchoked
         else ChokingState.Choked) })) := rfl
  obtain ⟨hnu, hlen⟩ :=
    newUnchokedSet_nodup_length pm reselect hnd (by omega)
  constructor
  · rw [hpeers]
    exact le_trans (filter_unchoked_length pm.peers _ hnd) hlen
  · rintro ⟨e, he, hi⟩
    have hmem : e ∈ pm.peers.filter
        (fun e => e.2.peer_interested = .Interested) :=
      List.mem_filter.2 ⟨he, by simp [hi]⟩
    have hmemS : e ∈ pm.sortedInterested :=
      ((List.perm_insertionSort PeerManager.rateGE _).mem_iff).2 hmem
    have hSne : pm.sortedInterested ≠ [] := by
      intro hnil
      rw [hnil] at hmemS
      exact (List.not_mem_nil e) hmemS
    obtain ⟨s, S', hS⟩ := List.exists_cons_of_ne_nil hSne
    obtain ⟨k, hk⟩ : ∃ k, pm.max_unchoked - 1 = k + 1 :=
      ⟨pm.max_unchoked - 2, by omega⟩
    have hsreg : s.1 ∈ pm.regularUnchokes := by
      rw [PeerManager.regularUnchokes, hS, hk, List.take_succ_cons]
      exact List.mem_map.2 ⟨s, List.mem_cons_self _ _, rfl⟩
    have hsnu : s.1 ∈ pm.newUnchokedSet reselect := by
      rcases h : pm.optimisticChoice reselect with _ | p
      · simpa [PeerManager.newUnchokedSet, h] using hsreg
      · simp only [PeerManager.newUnchokedSet, h]
        by_cases hp : p ∈ pm.regularUnchokes
        · simpa [hp] using hsreg
        · simp only [hp, if_false]
          exact List.mem_append_left _ hsreg
    have hsS : s ∈ pm.sortedInterested := by
      rw [hS]; exact List.mem_cons_self _ _
    have hsfil : s ∈ pm.peers.filter
        (fun e => e.2.peer_interested = .Interested) :=
      ((List.perm_insertionSort PeerManager.rateGE _).mem_iff).1 hsS
    have hspeers : s ∈ pm.peers := List.mem_of_mem_filter hsfil
    have hsint : s.2.peer_interested = InterestState.Interested := by
      have := List.of_mem_filter hsfil
      simpa using this
    refine ⟨(s.1, { s.2 with am_choking :=
      (if s.1 ∈ (pm.newUnchokedSet reselect) then ChokingState.Unchoked
       else ChokingState.Choked) }), ?_, ?_, ?_⟩
    · rw [hpeers]
      exact List.mem_map.2 ⟨s, hspeers, rfl⟩
    · simpa using hsint
    · simp [hsnu]

/-- Witness for C5 at the one-interested-peer registry fixture. -/
theorem spec_C5_witness :
    (((registryFixture.update_choking 5 false).peers.filter
        (fun e => decide (e.2.am_choking = ChokingState.Unchoked))).length
      ≤ registryFixture.max_unchoked) ∧
    ((∃ e ∈ registryFixture.peers,
        e.2.peer_interested = InterestState.Interested) →
      ∃ e ∈ (registryFixture.update_choking 5 false).peers,
        e.2.peer_interested = InterestState.Interested ∧
        e.2.am_choking = ChokingState.Unchoked) :=
  spec_C5_choking registryFixture 5 false (by decide) (by decide)

/-! ## C4 — rarest-piece ordering -/

/-- `bumpCount` increments exactly the bumped key's entry (a fresh key
enters at 1). -/
theorem alistGet_bumpCount (counts : List (PieceIndex × Nat))
    (i j : PieceIndex) :
    alistGet (PeerManager.bumpCount counts i) j =
      if j = i then some ((alistGet counts i).getD 0 + 1)
      else alistGet counts j := by
  induction counts with
  | nil =>
      by_cases h : j = i
      · subst h; simp [PeerManager.bumpCount, alistGet]
      · simp [PeerManager.bumpCount, alistGet, h, Ne.symm h]
  | cons e rest ih =>
      obtain ⟨k, c⟩ := e
      by_cases hk : k = i
      · subst hk
        by_cases h : j = k
        · subst h; simp [PeerManager.bumpCount, alistGet]
        · simp [PeerManager.bumpCount, alistGet, h, Ne.symm h]
      · by_cases h : j = i
        · subst h
          simp [PeerManager.bumpCount, alistGet, hk, ih, Ne.symm hk]
        · by_cases hkj : k = j
          · subst hkj
            simp [PeerManager.bumpCount, alistGet, hk, h]
          · simp [PeerManager.bumpCount, alistGet, hk, h, hkj, ih]

/-- Keys after a `bumpCount` are among the old keys and the bumped key. -/
theorem bumpCount_keys_sub (counts : List (PieceIndex × Nat))
    (i a : PieceIndex)
    (ha : a ∈ (PeerManager.bumpCount counts i).map Prod.fst) :
    a ∈ counts.map Prod.fst ∨ a = i := by
  induction counts with
  | nil =>
      simp [PeerManager.bumpCount] at ha
      exact Or.inr ha
  | cons e rest ih =>
      obtain ⟨k, c⟩ := e
      by_cases hk : k = i
      · rw [show PeerManager.bumpCount ((k, c) :: rest) i =
            (k, c + 1) :: rest by simp [PeerManager.bumpCount, hk]] at ha
        rw [List.map_cons, List.mem_cons] at ha
        rcases ha with rfl | ha
        · exact Or.inl (by rw [List.map_cons, List.mem_cons]
                           exact Or.inl rfl)
        · exact Or.inl (by rw [List.map_cons, List.mem_cons]
                           exact Or.inr ha)
      · rw [show PeerManager.bumpCount ((k, c) :: rest) i =
            (k, c) :: PeerManager.bumpCount rest i by
          simp [PeerManager.bumpCount, hk]] at ha
        rw [List.map_cons, List.mem_cons] at ha
        rcases ha with rfl | ha
        · exact Or.inl (by rw [List.map_cons, List.mem_cons]
                           exact Or.inl rfl)
        · rcases ih ha with hmem | heq
          · exact Or.inl (by rw [List.map_cons, List.mem_cons]
                             exact Or.inr hmem)
          · exact Or.inr heq

/-- `bumpCount` preserves duplicate-freedom of the keys. -/
theorem bumpCount_keys_nodup (counts : List (PieceIndex × Nat))
    (i : PieceIndex) (hnd : (counts.map Prod.fst).Nodup) :
    ((PeerManager.bumpCount counts i).map Prod.fst).Nodup := by
  induction counts with
  | nil => simp [PeerManager.bumpCount]
  | cons e rest ih =>
      obtain ⟨k, c⟩ := e
      rw [List.map_cons, List.nodup_cons] at hnd
      by_cases hk : k = i
      · rw [show PeerManager.bumpCount ((k, c) :: rest) i =
            (k, c + 1) :: rest by simp [PeerManager.bumpCount, hk]]
        rw [List.map_cons, List.nodup_cons]
        exact hnd
      · rw [show PeerManager.bumpCount ((k, c) :: rest) i =
            (k, c) :: PeerManager.bumpCount rest i by
          simp [PeerManager.bumpCount, hk]]
        rw [List.map_cons, List.nodup_cons]
        refine ⟨?_, ih hnd.2⟩
        intro hmem
        rcases bumpCount_keys_sub rest i k hmem with h | h
        · exact hnd.1 h
        · exact hk h

/-- On an association list with duplicate-free keys, membership of a pair
is lookup. -/
theorem alistGet_of_nodup_mem (l : List (PieceIndex × Nat))
    (hnd : (l.map Prod.fst).Nodup) (i : PieceIndex) (c : Nat) :
    (i, c) ∈ l ↔ alistGet l i = some c := by
  induction l with
  | nil => simp [alistGet]
  | cons e rest ih =>
      obtain ⟨k, v⟩ := e
      rw [List.map_cons, List.nodup_cons] at hnd
      by_cases hk : k = i
      · subst hk
        have hget : alistGet ((k, v) :: rest) k = some v := by
          simp [alistGet]
        rw [hget]
        constructor
        · intro hmem
          rcases List.mem_cons.1 hmem with h | h
          · rw [(Prod.mk.inj h).2]
          · exact absurd (List.mem_map.2 ⟨(k, c), h, rfl⟩) hnd.1
        · intro h
          exact List.mem_cons.2 (Or.inl (by rw [Option.some.inj h]))
      · have hget : alistGet ((k, v) :: rest) i = alistGet rest i := by
          simp [alistGet, hk]
        rw [hget, ← ih hnd.2]
        constructor
        · intro hmem
          rcases List.mem_cons.1 hmem with h | h
          · exact absurd (Prod.mk.inj h).1.symm hk
          · exact h
        · intro h
          exact List.mem_cons.2 (Or.inr h)

/-- An index is in `available_pieces` exactly when `has_piece` holds. -/
theorem mem_available_pieces (bf : Bitfield) (i : PieceIndex) :
    i ∈ bf.available_pieces ↔ bf.has_piece i = true := by
  rw [Bitfield.available_pieces, Bitfield.has_piece, List.getD]
  constructor
  · intro h
    rcases List.mem_map.1 h with ⟨p, hp, hpi⟩
    obtain ⟨j, b⟩ := p
    have hji : j = i := hpi
    subst hji
    have hmemf := List.mem_filter.1 hp
    have hb : b = true := by simpa using hmemf.2
    subst hb
    rw [List.mk_mem_enum_iff_get?.1 hmemf.1]
    rfl
  · intro h
    rcases hg : bf.bits.get? i with _ | b
    · rw [hg] at h; exact absurd h (by simp)
    · rw [hg] at h
      have hb : b = true := by simpa using h
      subst hb
      refine List.mem_map.2 ⟨(i, true), ?_, rfl⟩
      exact List.mem_filter.2 ⟨List.mk_mem_enum_iff_get?.2 hg, by simp⟩

/-- `available_pieces` lists each index at most once. -/
theorem nodup_available_pieces (bf : Bitfield) :
    bf.available_pieces.Nodup := by
  rw [Bitfield.available_pieces]
  have h1 : List.Sublist ((bf.bits.enum.filter (fun p => p.2)).map
      Prod.fst) (bf.bits.enum.map Prod.fst) :=
    (List.filter_sublist _).map Prod.fst
  rw [List.enum_map_fst] at h1
  exact h1.nodup (List.nodup_range _)

/-- Folding `bumpCount` over a duplicate-free index list adds one to
exactly the listed entries. -/
theorem foldl_bumpCount_get (avail : List PieceIndex) :
    ∀ counts : List (PieceIndex × Nat), avail.Nodup → ∀ j,
      alistGet (avail.foldl PeerManager.bumpCount counts) j =
        if j ∈ avail then some ((alistGet counts j).getD 0 + 1)
        else alistGet counts j := by
  induction avail with
  | nil => intro counts _ j; simp
  | cons a rest ih =>
      intro counts hnd j
      rw [List.foldl_cons]
      rw [List.nodup_cons] at hnd
      rw [ih (PeerManager.bumpCount counts a) hnd.2 j]
      by_cases hjr : j ∈ rest
      · have hja : j ≠ a := fun h => hnd.1 (h ▸ hjr)
        rw [if_pos hjr, if_pos (List.mem_cons.2 (Or.inr hjr)),
          alistGet_bumpCount, if_neg hja]
      · rw [if_neg hjr, alistGet_bumpCount]
        by_cases hja : j = a
        · subst hja
          rw [if_pos rfl, if_pos (List.mem_cons.2 (Or.inl rfl))]
        · rw [if_neg hja, if_neg (by
            intro hm
            rcases List.mem_cons.1 hm with h | h
            · exact hja h
            · exact hjr h)]

/-- Folding `bumpCount` preserves duplicate-free keys. -/
theorem foldl_bumpCount_nodup (avail : List PieceIndex) :
    ∀ counts : List (PieceIndex × Nat), (counts.map Prod.fst).Nodup →
      (((avail.foldl PeerManager.bumpCount counts)).map Prod.fst).Nodup := by
  induction avail with
  | nil => intro counts h; exact h
  | cons a rest ih =>
      intro counts h
      rw [List.foldl_cons]
      exact ih _ (bumpCount_keys_nodup _ _ h)

/-- The `piece_counts` accumulation of `rarest_pieces` computes, for each
piece, the number of Ready peers advertising it (entries existing exactly
for positive counts), with duplicate-free keys. -/
theorem pieceCounts_fold (peers : List (PeerId × Peer)) :
    ∀ (f : PieceIndex → Nat) (counts : List (PieceIndex × Nat)),
      (counts.map Prod.fst).Nodup →
      (∀ j, alistGet counts j = PeerManager.countOpt (f j)) →
      ((peers.foldl (fun counts e =>
          if e.2.state = .Ready then
            e.2.bitfield.available_pieces.foldl PeerManager.bumpCount
              counts
          else counts) counts).map Prod.fst).Nodup ∧
      ∀ j, alistGet (peers.foldl (fun counts e =>
          if e.2.state = .Ready then
            e.2.bitfield.available_pieces.foldl PeerManager.bumpCount
              counts
          else counts) counts) j =
        PeerManager.countOpt (f j + PeerManager.readyCountList peers j) := by
  induction peers with
  | nil =>
      intro f counts hnd hrep
      refine ⟨hnd, fun j => ?_⟩
      simp [PeerManager.readyCountList, hrep j]
  | cons e rest ih =>
      intro f counts hnd hrep
      rw [List.foldl_cons]
      by_cases hst : e.2.state = PeerState.Ready
      · rw [if_pos hst]
        have hnd' := foldl_bumpCount_nodup
          e.2.bitfield.available_pieces counts hnd
        have hrep' : ∀ j, alistGet
            (e.2.bitfield.available_pieces.foldl PeerManager.bumpCount
              counts) j =
            PeerManager.countOpt (if e.2.bitfield.has_piece j then f j + 1
              else f j) := by
          intro j
          rw [foldl_bumpCount_get _ counts (nodup_available_pieces _) j]
          by_cases hj : j ∈ e.2.bitfield.available_pieces
          · have hp : e.2.bitfield.has_piece j = true :=
              (mem_available_pieces _ _).1 hj
            rw [if_pos hj, hrep j]
            rcases hfj : f j with _ | n <;>
              simp [PeerManager.countOpt, hp, hfj]
          · have hp : e.2.bitfield.has_piece j = false := by
              have := fun hx => hj ((mem_available_pieces _ _).2 hx)
              simpa using this
            rw [if_neg hj, hrep j]
            simp [hp]
        obtain ⟨hndr, hrepr⟩ := ih _ _ hnd' hrep'
        refine ⟨hndr, fun j => ?_⟩
        rw [hrepr j]
        have hlen : PeerManager.readyCountList (e :: rest) j =
            (if e.2.bitfield.has_piece j then 1 else 0) +
              PeerManager.readyCountList rest j := by
          rw [PeerManager.readyCountList, PeerManager.readyCountList,
            List.filter_cons]
          by_cases hp2 : e.2.bitfield.has_piece j = true
          · simp only [hst, Peer.peer_has_piece, hp2]
            simp
            omega
          · simp [hst, Peer.peer_has_piece, hp2]
        have harith : (if e.2.bitfield.has_piece j then f j + 1
            else f j) + PeerManager.readyCountList rest j =
            f j + PeerManager.readyCountList (e :: rest) j := by
          rw [hlen]
          by_cases hp2 : e.2.bitfield.has_piece j = true
          · simp [hp2]
            omega
          · simp [hp2]
        exact congrArg PeerManager.countOpt harith
      · rw [if_neg hst]
        obtain ⟨hndr, hrepr⟩ := ih f counts hnd hrep
        refine ⟨hndr, fun j => ?_⟩
        rw [hrepr j]
        have harith : f j + PeerManager.readyCountList rest j =
            f j + PeerManager.readyCountList (e :: rest) j := by
          rw [PeerManager.readyCountList, PeerManager.readyCountList,
            List.filter_cons]
          simp [hst]
        exact congrArg PeerManager.countOpt harith

/-- C4 (amended): `rarest_pieces` returns `(piece, count)` pairs — one for
each piece advertised by at least one Ready peer, whether or not we are
missing it, and none for missing pieces no Ready peer has — where `count`
is the number of Ready peers advertising the piece, sorted ascending by
count; the relative order of equal counts follows the hash map's
iteration order and is not a piece-index tie-break. -/
theorem spec_C4_rarest (pm : PeerManager) :
    List.Sorted PeerManager.countLE pm.rarest_pieces ∧
    ∀ i c, ((i, c) ∈ pm.rarest_pieces ↔
      (c = pm.readyCount i ∧ 0 < c)) := by
  constructor
  · rw [PeerManager.rarest_pieces]
    exact List.sorted_insertionSort PeerManager.countLE _
  · intro i c
    rw [PeerManager.rarest_pieces, List.mem_insertionSort]
    obtain ⟨hnd0, hrep0⟩ := pieceCounts_fold pm.peers (fun _ => 0) []
      (by simp) (fun j => by simp [alistGet, PeerManager.countOpt])
    rw [alistGet_of_nodup_mem _ hnd0, hrep0 i]
    simp only [Nat.zero_add, PeerManager.readyCount]
    rcases h : PeerManager.readyCountList pm.peers i with _ | n
    · simp [PeerManager.countOpt]
    · have hopt : PeerManager.countOpt (n + 1) = some (n + 1) := by
        simp [PeerManager.countOpt]
      rw [hopt]
      constructor
      · intro hc
        have h1 := Option.some.inj hc
        exact ⟨h1.symm, by omega⟩
      · intro hc
        rw [hc.1]

/-- C4 (counterexample): with one piece, an empty bitfield, and no peers,
we are missing piece 0 but `rarest_pieces` returns the empty list — it
does not return "exactly the piece indices we are missing". -/
theorem spec_C4_counterexample :
    PeerManager.rarest_pieces (PeerManager.new 1 10 0) = [] ∧
    (PeerManager.new 1 10 0).our_bitfield.missing_pieces = [0] := by
  constructor
  · decide
  · decide
